import Mathlib

/-!
Verification of the task-manager core in `examen2parcial.py`.

The embedding is shallow and faithful to the Python source:

* A task dict `{"name", "priority", "dependencies", "due_date"}` becomes the
  structure `Task`.  Python dict equality is structural equality on these four
  fields, which is exactly `Task` equality.
* The heap `self.tasks` is a `List Entry` with `Entry = Int × Task`, mirroring
  the `(priority, task)` tuples pushed by `add_task`.
* `heapq` operations (`heappush`, `heappop`, `heapify` and their internal
  `_siftdown` / `_siftup` loops) are translated step for step from CPython's
  pure-Python `heapq` reference implementation.  Element comparison is the
  partial Python comparison on `(int, dict)` tuples: it is decided by the
  integer priorities when they differ, two equal tuples compare `False`, and
  comparing two distinct dicts raises `TypeError`.  Fallible operations return
  `Except PyErr _`; an `error` result models the Python exception propagating
  out of the operation.
* The two internal sift loops carry an explicit fuel argument so that the
  recursion is structural; the fuel chosen at every call site (`pos` for
  `_siftdown`, `endpos` for `_siftup`, `len(tasks)` for the drain loop of
  `complete_task`) is an upper bound on the number of loop iterations, so the
  out-of-fuel branches (which replicate the loop-exit behaviour) are never
  reached on the actual call sites.
* `completed_tasks` (a Python `set` of strings) becomes a `Finset String`.
* The JSON file is abstracted by `StoredFile`: `missing` (no file),
  `malformed` (present but `json.load` raises), or `valid tasks completed`
  (well-formed content with the two fields written by `save_tasks`).
-/

namespace Examen2

/-- A task dict as built by `add_task`. -/
structure Task where
  name : String
  priority : Int
  dependencies : List String
  due_date : Option String
deriving DecidableEq, Repr

/-- A heap entry: the `(priority, task)` tuple pushed by `add_task`. -/
abbrev Entry := Int × Task

/-- Python exceptions that the modelled code can raise. -/
inductive PyErr where
  /-- `TypeError` from comparing two dicts. -/
  | typeError
  /-- `ValueError` raised by the `add_task` validations. -/
  | valueError
  /-- `IndexError` from `list.pop()` on an empty list. -/
  | indexError
  /-- `json.JSONDecodeError` from `json.load` on malformed content
  (the spec's `PersistenceError`). -/
  | jsonDecodeError
deriving DecidableEq, Repr

/-- Equality of `Except` results is decidable componentwise. -/
instance {ε α : Type} [DecidableEq ε] [DecidableEq α] : DecidableEq (Except ε α) := fun x y =>
  match x, y with
  | .error e1, .error e2 =>
    if h : e1 = e2 then .isTrue (by rw [h]) else .isFalse (fun hc => by cases hc; exact h rfl)
  | .error _, .ok _ => .isFalse (fun hc => by cases hc)
  | .ok _, .error _ => .isFalse (fun hc => by cases hc)
  | .ok a1, .ok a2 =>
    if h : a1 = a2 then .isTrue (by rw [h]) else .isFalse (fun hc => by cases hc; exact h rfl)

/-- Placeholder entry for out-of-range `getD` reads; the guards in the sift
loops keep every read in range, so it is never returned. -/
def dfltEntry : Entry := (0, { name := "", priority := 0, dependencies := [], due_date := none })

/-- Python `<` on two `(priority, task)` heap entries.  Tuple comparison first
tests the priorities with `==`; distinct priorities decide the result, equal
tuples compare `False`, and otherwise Python falls through to `dict < dict`,
which raises `TypeError`. -/
def pyLt (e1 e2 : Entry) : Except PyErr Bool :=
  if e1.1 = e2.1 then
    if e1.2 = e2.2 then .ok false else .error .typeError
  else
    .ok (decide (e1.1 < e2.1))

/-- CPython `heapq._siftdown(heap, startpos, pos)` with `newitem = heap[pos]`
read before the loop.  The fuel is an iteration bound; with fuel `≥ pos` the
zero-fuel branch coincides with loop exit (the loop runs `while pos > startpos`
and `pos` at least halves each iteration). -/
def siftdownLoop : Nat → List Entry → Nat → Nat → Entry → Except PyErr (List Entry)
  | 0, a, _, pos, newitem => .ok (a.set pos newitem)
  | fuel + 1, a, startpos, pos, newitem =>
    if startpos < pos then
      let parentpos := (pos - 1) / 2
      let parent := a.getD parentpos dfltEntry
      match pyLt newitem parent with
      | .error e => .error e
      | .ok true => siftdownLoop fuel (a.set pos parent) startpos parentpos newitem
      | .ok false => .ok (a.set pos newitem)
    else
      .ok (a.set pos newitem)

/-- CPython `heapq._siftup(heap, pos)` with `endpos = len(heap)`,
`startpos = pos` and `newitem = heap[pos]` fixed before the loop.  The loop
moves the smaller child up until a leaf position is reached, then restores
`newitem` and sifts it down.  Fuel `≥ endpos - pos` suffices since `pos` at
least doubles each iteration. -/
def siftupLoop : Nat → List Entry → Nat → Nat → Nat → Entry → Except PyErr (List Entry)
  | 0, a, _, startpos, pos, newitem => siftdownLoop pos (a.set pos newitem) startpos pos newitem
  | fuel + 1, a, endpos, startpos, pos, newitem =>
    let childpos := 2 * pos + 1
    if childpos < endpos then
      if childpos + 1 < endpos then
        match pyLt (a.getD childpos dfltEntry) (a.getD (childpos + 1) dfltEntry) with
        | .error e => .error e
        | .ok true =>
          siftupLoop fuel (a.set pos (a.getD childpos dfltEntry)) endpos startpos childpos newitem
        | .ok false =>
          siftupLoop fuel (a.set pos (a.getD (childpos + 1) dfltEntry)) endpos startpos
            (childpos + 1) newitem
      else
        siftupLoop fuel (a.set pos (a.getD childpos dfltEntry)) endpos startpos childpos newitem
    else
      siftdownLoop pos (a.set pos newitem) startpos pos newitem

/-- `heapq._siftup(heap, pos)`: reads `newitem = heap[pos]` and runs the loop
with `endpos = len(heap)` and `startpos = pos`. -/
def siftup (a : List Entry) (pos : Nat) : Except PyErr (List Entry) :=
  siftupLoop a.length a a.length pos pos (a.getD pos dfltEntry)

/-- `heapq.heappush(heap, item)`: append, then sift the new last element down
towards the root. -/
def heappush (heap : List Entry) (item : Entry) : Except PyErr (List Entry) :=
  siftdownLoop heap.length (heap ++ [item]) 0 heap.length item

/-- `heapq.heappop(heap)`: pop the last element, and if the heap is still
non-empty move it to the root and sift up.  Returns the popped minimum together
with the new heap.  On an empty heap `list.pop()` raises `IndexError`. -/
def heappop (heap : List Entry) : Except PyErr (Entry × List Entry) :=
  match heap.getLast? with
  | none => .error .indexError
  | some lastelt =>
    let rest := heap.dropLast
    match rest with
    | [] => .ok (lastelt, [])
    | _ :: _ =>
      let returnitem := rest.getD 0 dfltEntry
      match siftup (rest.set 0 lastelt) 0 with
      | .error e => .error e
      | .ok a => .ok (returnitem, a)

/-- The loop of `heapq.heapify(x)`: `for i in reversed(range(n // 2)): _siftup(x, i)`.
`heapifyGo a (i + 1)` runs `_siftup` at positions `i, i - 1, ..., 0`. -/
def heapifyGo : List Entry → Nat → Except PyErr (List Entry)
  | a, 0 => .ok a
  | a, i + 1 =>
    match siftup a i with
    | .error e => .error e
    | .ok a2 => heapifyGo a2 i

/-- `heapq.heapify(x)`. -/
def heapify (a : List Entry) : Except PyErr (List Entry) :=
  heapifyGo a (a.length / 2)

/-- The in-memory state of a `TaskManager`: the heap list `self.tasks` and the
set `self.completed_tasks`.  The `filename` field carries no semantics and is
omitted. -/
structure TaskManager where
  tasks : List Entry
  completed : Finset String
deriving DecidableEq

/-- The persisted JSON file seen by `load_tasks` / `save_tasks`: absent,
present but malformed (so `json.load` raises), or well-formed with the
`"tasks"` and `"completed_tasks"` fields that `save_tasks` writes. -/
inductive StoredFile where
  | missing
  | malformed
  | valid (tasks : List Entry) (completed : List String)
deriving DecidableEq

/-- `load_tasks` as run by `__init__`: the fields start empty; if the file
exists, its content replaces them (a malformed file makes `json.load` raise,
which propagates out of construction), and the loaded task list is heapified —
which can itself raise `TypeError` when it compares two equal-priority distinct
task dicts. -/
def load_tasks (file : StoredFile) : Except PyErr TaskManager :=
  match file with
  | .missing => .ok { tasks := [], completed := ∅ }
  | .malformed => .error .jsonDecodeError
  | .valid ts cs =>
    match heapify ts with
    | .error e => .error e
    | .ok h => .ok { tasks := h, completed := cs.toFinset }

/-- The list that `list(self.completed_tasks)` produces.  Python's set
iteration order is an implementation detail; the sorted order stands in for it
(any order yields the same reloaded set).  Implemented as an insertion sort of
any representative of the underlying multiset — sorted lists of a multiset are
unique, so the lift is well defined and evaluates in the kernel. -/
def completedList (s : Finset String) : List String :=
  Quot.liftOn s.val (fun l => l.insertionSort (· ≤ ·))
    (fun l1 l2 hp =>
      List.eq_of_perm_of_sorted
        (((List.perm_insertionSort _ l1).trans hp).trans (List.perm_insertionSort _ l2).symm)
        (List.sorted_insertionSort _ l1) (List.sorted_insertionSort _ l2))

/-- `save_tasks`: dumps the heap list in its internal order and the completed
set as a list. -/
def save_tasks (m : TaskManager) : StoredFile :=
  .valid m.tasks (completedList m.completed)

/-- The dynamic type of the `priority` argument of `add_task`: Python's
`isinstance(priority, int)` distinguishes an `int` from any other number, here
represented by `pyfloat` carrying its literal text. -/
inductive PyNum where
  | pyint (i : Int)
  | pyfloat (lit : String)
deriving DecidableEq

/-- Python's `not name.strip()` test: `strip()` drops leading and trailing
whitespace, so the stripped string is empty exactly when every character of
`name` is whitespace (vacuously for the empty string).  Stated through
`List.all` rather than `String.trim` so that it evaluates in the kernel. -/
def isBlank (name : String) : Bool :=
  name.data.all Char.isWhitespace

/-- `add_task(name, priority, dependencies=None, due_date=None)`: validates
that the name is non-empty after stripping and that the priority is an `int`
(raising `ValueError` otherwise, before any state is touched), defaults the
dependency list, builds the task dict and pushes `(priority, task)` onto the
heap.  The `save_tasks` call after the push writes `save_tasks` of the new
state and cannot fail in this model. -/
def add_task (m : TaskManager) (name : String) (priority : PyNum)
    (dependencies : Option (List String)) (due_date : Option String) :
    Except PyErr TaskManager :=
  if isBlank name then .error .valueError
  else
    match priority with
    | .pyfloat _ => .error .valueError
    | .pyint p =>
      let deps := dependencies.getD []
      let task : Task := { name := name, priority := p, dependencies := deps, due_date := due_date }
      match heappush m.tasks (p, task) with
      | .error e => .error e
      | .ok ts => .ok { m with tasks := ts }

/-- The sort key used by `show_tasks`: `(x[0], x[1]["due_date"] or "")`, i.e.
the priority paired with the due date where a missing date becomes `""`. -/
def dueKey (t : Task) : String := t.due_date.getD ""

/-- Boolean comparison corresponding to Python `<=` on the `show_tasks` sort
keys `(int, str)`, compared lexicographically. -/
def showKeyLE (e1 e2 : Entry) : Bool :=
  decide (e1.1 < e2.1) || (decide (e1.1 = e2.1) && decide (dueKey e1.2 ≤ dueKey e2.2))

/-- `show_tasks`: `sorted(self.tasks, key=lambda x: (x[0], x[1]["due_date"] or ""))`.
Python's `sorted` is a stable sort by the key's total preorder, and a stable
sort is extensionally unique, so the stable `List.mergeSort` computes the same
list.  It builds a new list; `self.tasks` is not touched. -/
def show_tasks (m : TaskManager) : List Entry :=
  m.tasks.mergeSort showKeyLE

/-- The drain loop of `complete_task`: `while self.tasks:` pop the minimum; a
name match sets the found flag (and its name joins `completed_tasks`), any
other entry is appended to `remaining_tasks`.  Fuel `≥ len(ts)` suffices since
each `heappop` shortens the list by one, and the zero-fuel branch coincides
with the loop exit on an empty list. -/
def drainLoop : Nat → String → List Entry → List Entry → Bool →
    Except PyErr (List Entry × Bool)
  | 0, _, _, rem, found => .ok (rem, found)
  | _ + 1, _, [], rem, found => .ok (rem, found)
  | fuel + 1, name, e :: ts, rem, found =>
    match heappop (e :: ts) with
    | .error err => .error err
    | .ok (p, ts2) =>
      if p.2.name = name then drainLoop fuel name ts2 rem true
      else drainLoop fuel name ts2 (rem ++ [p]) found

/-- The rebuild loop of `complete_task`: `for task in remaining_tasks:
heapq.heappush(self.tasks, task)`, starting from the empty list left by the
drain. -/
def push_all : List Entry → List Entry → Except PyErr (List Entry)
  | acc, [] => .ok acc
  | acc, e :: rest =>
    match heappush acc e with
    | .error err => .error err
    | .ok acc2 => push_all acc2 rest

/-- `complete_task(task_name)`: drain the whole heap, drop every entry whose
name matches (adding the name to `completed_tasks`), push the rest back, and
save.  The Python function returns `None`; the returned `Bool` here is the
`task_found` flag, whose value is the caller-observable outcome (it decides
whether the "not found" message is printed).  An `error` result models the
`TypeError` that a comparison of equal-priority distinct tasks raises, which
propagates out of the method. -/
def complete_task (m : TaskManager) (task_name : String) :
    Except PyErr (TaskManager × Bool) :=
  match drainLoop m.tasks.length task_name m.tasks [] false with
  | .error e => .error e
  | .ok (rem, found) =>
    match push_all [] rem with
    | .error e => .error e
    | .ok ts =>
      .ok ({ tasks := ts,
             completed := if found then insert task_name m.completed else m.completed },
           found)

/-- `is_executable(task)`: all dependency names are in `completed_tasks`. -/
def is_executable (m : TaskManager) (task : Task) : Bool :=
  task.dependencies.all (fun dep => decide (dep ∈ m.completed))

/-- The observable outcome of `next_task`: the "no pending tasks" message, the
"blocked by dependencies" message, or the returned task. -/
inductive NextResult where
  | noPending
  | blocked
  | found (t : Task)
deriving DecidableEq

/-- `next_task()`: peek `self.tasks[0]` (no mutation), return the task if
executable, otherwise report it blocked; report no pending tasks on an empty
heap. -/
def next_task (m : TaskManager) : NextResult :=
  match m.tasks with
  | [] => .noPending
  | (_, task) :: _ => if is_executable m task then .found task else .blocked

/-- The heap invariant on priorities: every child's priority is at least its
parent's.  `show_tasks`' claim needs nothing of it, but the minimality of
`tasks[0]` in `next_task` does. -/
def heapProp (l : List Entry) : Prop :=
  ∀ i, i < l.length → 0 < i → (l.getD ((i - 1) / 2) dfltEntry).1 ≤ (l.getD i dfltEntry).1

instance heapPropDecidable (l : List Entry) : Decidable (heapProp l) := by
  unfold heapProp
  infer_instance

/-! Permutation bookkeeping for the sift loops.  Each iteration of
`_siftdown` / `_siftup` overwrites one slot with the value destined for it and
keeps the displaced value in `newitem`'s conceptual slot, so the list obtained
by finally writing `newitem` is always a transposition away from the previous
one. -/

theorem set_getD_self {α : Type} (d : α) :
    ∀ (l : List α) (i : Nat), i < l.length → l.set i (l.getD i d) = l := by
  intro l
  induction l with
  | nil => intro i hi; simp at hi
  | cons y t ih =>
    intro i hi
    cases i with
    | zero => simp
    | succ i => simpa using ih i (by simpa using hi)

theorem getD_set_cons_perm {α : Type} (d : α) :
    ∀ (l : List α) (k : Nat), k < l.length → ∀ x : α, List.Perm ((l.getD k d) :: l.set k x) (x :: l) := by
  intro l
  induction l with
  | nil => intro k hk; simp at hk
  | cons y t ih =>
    intro k hk x
    cases k with
    | zero => simpa using List.Perm.swap x y t
    | succ k =>
      simp only [List.getD_cons_succ, List.set_cons_succ]
      exact ((List.Perm.swap _ _ _).trans
      ((ih k (by simpa using hk) x).cons y)).trans (List.Perm.swap _ _ _)

theorem set_set_swap_perm {α : Type} (d : α) :
    ∀ (l : List α) (i j : Nat), i < l.length → j < l.length → i ≠ j →
      List.Perm ((l.set i (l.getD j d)).set j (l.getD i d)) l := by
  intro l
  induction l with
  | nil => intro i j hi; simp at hi
  | cons y t ih =>
    intro i j hi hj hij
    cases i with
    | zero =>
      cases j with
      | zero => exact absurd rfl hij
      | succ j =>
        simp only [List.getD_cons_succ, List.getD_cons_zero, List.set_cons_zero,
          List.set_cons_succ]
        exact getD_set_cons_perm d t j (by simpa using hj) y
    | succ i =>
      cases j with
      | zero =>
        simp only [List.getD_cons_succ, List.getD_cons_zero, List.set_cons_zero,
          List.set_cons_succ]
        exact getD_set_cons_perm d t i (by simpa using hi) y
      | succ j =>
        simp only [List.getD_cons_succ, List.set_cons_succ]
        exact (ih i j (by simpa using hi) (by simpa using hj)
          (fun hc => hij (by rw [hc]))).cons y

/-- The transposition step shared by both sift lemmas: moving `l[q]` into slot
`pos` and then writing `item` into slot `q` permutes writing `item` into slot
`pos` directly. -/
theorem set_swap_step {α : Type} (d : α) (a : List α) (pos q : Nat) (item : α)
    (hp : pos < a.length) (hq : q < a.length) (hne : q ≠ pos) :
    List.Perm ((a.set pos (a.getD q d)).set q item) (a.set pos item) := by
  have h := set_set_swap_perm d (a.set pos item) pos q (by simpa using hp) (by simpa using hq)
    (fun hc => hne hc.symm)
  rw [List.set_set] at h
  have hq2 : (a.set pos item).getD q d = a.getD q d := by
    rw [List.getD_eq_getElem _ _ (by simpa using hq), List.getD_eq_getElem _ _ hq]
    exact List.getElem_set_ne (fun hc => hne hc.symm) _
  have hp2 : (a.set pos item).getD pos d = item := by
    rw [List.getD_eq_getElem _ _ (by simpa using hp)]
    exact List.getElem_set_self (by simpa using hp)
  rw [hq2, hp2] at h
  exact h

theorem siftdownLoop_perm :
    ∀ (fuel : Nat) (a : List Entry) (startpos pos : Nat) (item : Entry) (b : List Entry),
      pos < a.length → siftdownLoop fuel a startpos pos item = .ok b → List.Perm b (a.set pos item) := by
  intro fuel
  induction fuel with
  | zero =>
    intro a startpos pos item b _ h
    simp only [siftdownLoop] at h
    exact (Except.ok.inj h) ▸ List.Perm.refl _
  | succ fuel ih =>
    intro a startpos pos item b hpos h
    simp only [siftdownLoop] at h
    by_cases hsp : startpos < pos
    · rw [if_pos hsp] at h
      cases hlt : pyLt item (a.getD ((pos - 1) / 2) dfltEntry) with
      | error e => rw [hlt] at h; cases h
      | ok c =>
        rw [hlt] at h
        cases c with
        | true =>
          have hpar : (pos - 1) / 2 < (a.set pos (a.getD ((pos - 1) / 2) dfltEntry)).length := by
            simp only [List.length_set]
            omega
          have hrec := ih _ startpos _ item b hpar h
          exact hrec.trans (set_swap_step dfltEntry a pos ((pos - 1) / 2) item hpos
            (by simp only [List.length_set] at hpar; exact hpar) (by omega))
        | false => exact (Except.ok.inj h) ▸ List.Perm.refl _
    · rw [if_neg hsp] at h
      exact (Except.ok.inj h) ▸ List.Perm.refl _

theorem siftupLoop_perm :
    ∀ (fuel : Nat) (a : List Entry) (endpos startpos pos : Nat) (item : Entry) (b : List Entry),
      endpos = a.length → pos < endpos →
      siftupLoop fuel a endpos startpos pos item = .ok b → List.Perm b (a.set pos item) := by
  intro fuel
  induction fuel with
  | zero =>
    intro a endpos startpos pos item b hlen hpos h
    simp only [siftupLoop] at h
    have := siftdownLoop_perm pos (a.set pos item) startpos pos item b
      (by simpa [hlen] using hpos) h
    rwa [List.set_set] at this
  | succ fuel ih =>
    intro a endpos startpos pos item b hlen hpos h
    simp only [siftupLoop] at h
    by_cases hc : 2 * pos + 1 < endpos
    · rw [if_pos hc] at h
      by_cases hr : 2 * pos + 1 + 1 < endpos
      · rw [if_pos hr] at h
        cases hlt : pyLt (a.getD (2 * pos + 1) dfltEntry) (a.getD (2 * pos + 1 + 1) dfltEntry) with
        | error e => rw [hlt] at h; cases h
        | ok c =>
          rw [hlt] at h
          cases c with
          | true =>
            have hrec := ih _ endpos startpos _ item b (by simpa using hlen) hc h
            exact hrec.trans (set_swap_step dfltEntry a pos (2 * pos + 1) item
              (hlen ▸ hpos) (hlen ▸ hc) (by omega))
          | false =>
            have hrec := ih _ endpos startpos _ item b (by simpa using hlen) hr h
            exact hrec.trans (set_swap_step dfltEntry a pos (2 * pos + 1 + 1) item
              (hlen ▸ hpos) (hlen ▸ hr) (by omega))
      · rw [if_neg hr] at h
        have hrec := ih _ endpos startpos _ item b (by simpa using hlen) hc h
        exact hrec.trans (set_swap_step dfltEntry a pos (2 * pos + 1) item
          (hlen ▸ hpos) (hlen ▸ hc) (by omega))
    · rw [if_neg hc] at h
      have := siftdownLoop_perm pos (a.set pos item) startpos pos item b
        (by simpa using hlen ▸ hpos) h
      rwa [List.set_set] at this

/-- `_siftup` at an in-range position permutes nothing: the result is the input
list rearranged. -/
theorem siftup_perm (a : List Entry) (pos : Nat) (b : List Entry)
    (hpos : pos < a.length) (h : siftup a pos = .ok b) : List.Perm b a := by
  have hp := siftupLoop_perm a.length a a.length pos pos (a.getD pos dfltEntry) b rfl hpos h
  rwa [set_getD_self dfltEntry a pos hpos] at hp

theorem append_set_last {α : Type} (x : α) :
    ∀ l : List α, (l ++ [x]).set l.length x = l ++ [x] := by
  intro l
  induction l with
  | nil => rfl
  | cons y t ih => simp [ih]

/-- `heappush` only adds the new item: on success the result is a permutation
of the item consed onto the old heap. -/
theorem heappush_perm (heap : List Entry) (item : Entry) (b : List Entry)
    (h : heappush heap item = .ok b) : List.Perm b (item :: heap) := by
  have h1 := siftdownLoop_perm heap.length (heap ++ [item]) 0 heap.length item b
    (by simp) h
  rw [append_set_last] at h1
  exact h1.trans (List.perm_append_singleton item heap)

/-- `heappop` only removes its return value: on success the popped entry
consed onto the new heap is a permutation of the old heap. -/
theorem heappop_perm (heap : List Entry) (e : Entry) (b : List Entry)
    (h : heappop heap = .ok (e, b)) : List.Perm (e :: b) heap := by
  unfold heappop at h
  cases hlast : heap.getLast? with
  | none => rw [hlast] at h; cases h
  | some lastelt =>
    rw [hlast] at h
    have hne : heap ≠ [] := by
      intro hc; rw [hc] at hlast; cases hlast
    have hl : heap.getLast hne = lastelt := by
      rw [List.getLast?_eq_getLast heap hne] at hlast
      exact Option.some.inj hlast
    have hsplit : heap.dropLast ++ [lastelt] = heap := by
      rw [← hl]; exact List.dropLast_append_getLast hne
    cases hrest : heap.dropLast with
    | nil =>
      rw [hrest] at h
      simp only at h
      cases h
      rw [← hsplit, hrest]
      rfl
    | cons r0 rs =>
      rw [hrest] at h
      simp only at h
      cases hs : siftup ((r0 :: rs).set 0 lastelt) 0 with
      | error err => rw [hs] at h; cases h
      | ok a2 =>
        rw [hs] at h
        have hperm := siftup_perm _ 0 a2 (by simp) hs
        simp only [List.set_cons_zero] at hperm
        have h2 := Except.ok.inj h
        injection h2 with he hb
        subst he
        subst hb
        have hgoal : List.Perm ((r0 :: rs).getD 0 dfltEntry :: a2) (r0 :: lastelt :: rs) := by
          simpa using hperm.cons r0
        refine hgoal.trans ?_
        rw [← hsplit, hrest]
        exact ((List.perm_append_singleton lastelt rs).symm.cons r0)

theorem heappop_length (heap : List Entry) (e : Entry) (b : List Entry)
    (h : heappop heap = .ok (e, b)) : b.length + 1 = heap.length := by
  simpa using (heappop_perm heap e b h).length_eq

theorem heapifyGo_perm :
    ∀ (i : Nat) (a b : List Entry), i ≤ a.length → heapifyGo a i = .ok b → List.Perm b a := by
  intro i
  induction i with
  | zero =>
    intro a b _ h
    simp only [heapifyGo] at h
    exact (Except.ok.inj h) ▸ List.Perm.refl _
  | succ i ih =>
    intro a b hle h
    simp only [heapifyGo] at h
    cases hs : siftup a i with
    | error e => rw [hs] at h; cases h
    | ok a2 =>
      rw [hs] at h
      have h2 := siftup_perm a i a2 (by omega) hs
      exact (ih a2 b (by rw [h2.length_eq]; omega) h).trans h2

/-- `heapify` rearranges the list without adding or removing entries. -/
theorem heapify_perm (a b : List Entry) (h : heapify a = .ok b) : List.Perm b a :=
  heapifyGo_perm (a.length / 2) a b (Nat.div_le_self _ _) h

/-- What one full drain computes: some pop order `popped` of the input heap
such that the remaining list extends `rem` with exactly the non-matching
entries in pop order, and the flag records whether any popped name matched. -/
theorem drainLoop_spec :
    ∀ (fuel : Nat) (name : String) (ts rem : List Entry) (found : Bool)
      (res : List Entry × Bool), ts.length ≤ fuel →
      drainLoop fuel name ts rem found = .ok res →
      ∃ popped : List Entry, List.Perm popped ts ∧
        res.1 = rem ++ popped.filter (fun e => decide (e.2.name ≠ name)) ∧
        res.2 = (found || popped.any (fun e => decide (e.2.name = name))) := by
  intro fuel
  induction fuel with
  | zero =>
    intro name ts rem found res hlen h
    have hts : ts = [] := by
      cases ts with
      | nil => rfl
      | cons e ts0 => simp at hlen
    subst hts
    simp only [drainLoop] at h
    cases h
    exact ⟨[], List.Perm.refl _, by simp, by simp⟩
  | succ fuel ih =>
    intro name ts rem found res hlen h
    cases ts with
    | nil =>
      simp only [drainLoop] at h
      cases h
      exact ⟨[], List.Perm.refl _, by simp, by simp⟩
    | cons e ts0 =>
      simp only [drainLoop] at h
      cases hpop : heappop (e :: ts0) with
      | error err => rw [hpop] at h; cases h
      | ok pr =>
        obtain ⟨p, ts2⟩ := pr
        rw [hpop] at h
        dsimp only at h
        have hlen2 : ts2.length ≤ fuel := by
          have := heappop_length _ _ _ hpop
          simp only [List.length_cons] at this hlen
          omega
        have hperm := heappop_perm _ _ _ hpop
        by_cases hname : p.2.name = name
        · rw [if_pos hname] at h
          obtain ⟨popped0, hp0, hr1, hr2⟩ := ih name ts2 rem true res hlen2 h
          refine ⟨p :: popped0, (hp0.cons p).trans hperm, ?_, ?_⟩
          · rw [hr1, List.filter_cons]
            simp [hname]
          · rw [hr2]
            simp [hname]
        · rw [if_neg hname] at h
          obtain ⟨popped0, hp0, hr1, hr2⟩ := ih name ts2 (rem ++ [p]) found res hlen2 h
          refine ⟨p :: popped0, (hp0.cons p).trans hperm, ?_, ?_⟩
          · rw [hr1, List.filter_cons]
            simp [hname]
          · rw [hr2]
            simp [hname]

/-- The rebuild loop pushes exactly its argument list onto the accumulator. -/
theorem push_all_perm :
    ∀ (l acc b : List Entry), push_all acc l = .ok b → List.Perm b (acc ++ l) := by
  intro l
  induction l with
  | nil =>
    intro acc b h
    simp only [push_all] at h
    cases h
    simp
  | cons e rest ih =>
    intro acc b h
    simp only [push_all] at h
    cases hp : heappush acc e with
    | error err => rw [hp] at h; cases h
    | ok acc2 =>
      rw [hp] at h
      have h2 := heappush_perm acc e acc2 hp
      refine ((ih acc2 b h).trans ?_)
      refine (h2.append_right rest).trans ?_
      exact List.perm_middle.symm

/-- Booleans: `any` is invariant under permutation. -/
theorem perm_any_eq {l1 l2 : List Entry} (h : List.Perm l1 l2) (p : Entry → Bool) :
    l1.any p = l2.any p := by
  cases h1 : l1.any p with
  | true =>
    rw [List.any_eq_true] at h1
    obtain ⟨x, hx, hpx⟩ := h1
    exact (List.any_eq_true.mpr ⟨x, h.mem_iff.mp hx, hpx⟩).symm
  | false =>
    rw [List.any_eq_false] at h1
    exact (List.any_eq_false.mpr (fun x hx => h1 x (h.mem_iff.mpr hx))).symm

/-- The functional content of `complete_task` on a run that raises nothing:
the surviving heap is exactly the non-matching entries (with multiplicity),
the found flag tests whether any pending name matches, and the completed set
gains the name exactly when the flag is set. -/
theorem complete_task_spec (m : TaskManager) (name : String) (m2 : TaskManager) (f : Bool)
    (h : complete_task m name = .ok (m2, f)) :
    List.Perm m2.tasks (m.tasks.filter (fun e => decide (e.2.name ≠ name))) ∧
    f = m.tasks.any (fun e => decide (e.2.name = name)) ∧
    m2.completed = (if f then insert name m.completed else m.completed) := by
  unfold complete_task at h
  cases hd : drainLoop m.tasks.length name m.tasks [] false with
  | error e => rw [hd] at h; cases h
  | ok pr =>
    obtain ⟨rem, found⟩ := pr
    rw [hd] at h
    dsimp only at h
    cases hpa : push_all [] rem with
    | error e => rw [hpa] at h; cases h
    | ok ts =>
      rw [hpa] at h
      have h2 := Except.ok.inj h
      injection h2 with hm hf2
      subst hm
      subst hf2
      obtain ⟨popped, hperm, hr1, hr2⟩ :=
        drainLoop_spec m.tasks.length name m.tasks [] false (rem, found) (Nat.le_refl _) hd
      simp only [List.nil_append] at hr1
      have hts : List.Perm ts (m.tasks.filter (fun e => decide (e.2.name ≠ name))) := by
        have h1 := push_all_perm rem [] ts hpa
        simp only [List.nil_append] at h1
        rw [hr1] at h1
        exact h1.trans (hperm.filter _)
      have hf : found = m.tasks.any (fun e => decide (e.2.name = name)) := by
        dsimp only at hr2
        rw [hr2, Bool.false_or]
        exact perm_any_eq hperm _
      exact ⟨hts, hf, rfl⟩

/-- In a list with the heap property the root's priority is minimal. -/
theorem heapProp_root_le (l : List Entry) (hp : heapProp l) :
    ∀ i, i < l.length → (l.getD 0 dfltEntry).1 ≤ (l.getD i dfltEntry).1 := by
  intro i
  induction i using Nat.strong_induction_on with
  | _ i ih =>
    intro hi
    rcases Nat.eq_zero_or_pos i with h0 | hpos
    · subst h0; exact le_refl _
    · exact le_trans (ih ((i - 1) / 2) (by omega) (by omega)) (hp i hi hpos)

/-- The display order stated by the spec for `list_pending`: ascending
priority, and inside one priority ascending due date, with a missing date
taking the key `""`, which precedes every other date (the spec: "absence sorts
before presence in ascending lexical order (empty string sorts first)"). -/
def claimOrder (e1 e2 : Entry) : Prop :=
  e1.1 < e2.1 ∨ (e1.1 = e2.1 ∧ dueKey e1.2 ≤ dueKey e2.2)

theorem showKeyLE_trans : ∀ a b c : Entry,
    showKeyLE a b → showKeyLE b c → showKeyLE a c := by
  intro a b c hab hbc
  simp only [showKeyLE, Bool.or_eq_true, Bool.and_eq_true, decide_eq_true_eq] at *
  rcases hab with h1 | ⟨h1, h2⟩ <;> rcases hbc with h3 | ⟨h3, h4⟩
  · left; omega
  · left; omega
  · left; omega
  · right; exact ⟨by omega, le_trans h2 h4⟩

theorem showKeyLE_total : ∀ a b : Entry, showKeyLE a b || showKeyLE b a := by
  intro a b
  simp only [showKeyLE, Bool.or_eq_true, Bool.and_eq_true, decide_eq_true_eq]
  rcases lt_trichotomy a.1 b.1 with h | h | h
  · exact Or.inl (Or.inl h)
  · rcases le_total (dueKey a.2) (dueKey b.2) with h2 | h2
    · exact Or.inl (Or.inr ⟨h, h2⟩)
    · exact Or.inr (Or.inr ⟨h.symm, h2⟩)
  · exact Or.inr (Or.inl h)

/-- Reloading the list written for the completed set reproduces the set. -/
theorem toFinset_completedList (s : Finset String) : (completedList s).toFinset = s := by
  ext a
  rw [List.mem_toFinset]
  obtain ⟨m, hn⟩ := s
  revert hn
  refine Quotient.inductionOn m ?_
  intro l hn
  rw [show completedList ⟨Quotient.mk _ l, hn⟩ = l.insertionSort (· ≤ ·) from rfl,
    List.mem_insertionSort]
  rfl

/-! Concrete states used by the witnesses and counterexamples.  `mgr3` is the
state reached from an empty store by `add_task` with priorities 0, 1, 1: the
third push only compares against the priority-0 root, so it succeeds and
leaves two equal-priority tasks in the heap. -/

def emptyMgr : TaskManager := { tasks := [], completed := ∅ }

def taskX : Task := { name := "x", priority := 0, dependencies := [], due_date := none }

def taskT1 : Task := { name := "t1", priority := 1, dependencies := [], due_date := none }

def taskT2 : Task := { name := "t2", priority := 1, dependencies := [], due_date := none }

/-- Reachable state (see `c4_counterexample`) with two equal-priority tasks. -/
def mgr3 : TaskManager := { tasks := [(0, taskX), (1, taskT1), (1, taskT2)], completed := ∅ }

def taskB : Task := { name := "b", priority := 1, dependencies := [], due_date := none }

def taskC : Task := { name := "c", priority := 2, dependencies := [], due_date := none }

def mgrBC : TaskManager := { tasks := [(1, taskB), (2, taskC)], completed := ∅ }

def taskA1 : Task := { name := "A", priority := 1, dependencies := [], due_date := none }

def taskA2 : Task := { name := "A", priority := 2, dependencies := [], due_date := none }

/-- Reachable state (see `c2_counterexample`) with two pending tasks that share
the name `"A"` under distinct priorities. -/
def mgrAA : TaskManager := { tasks := [(1, taskA1), (2, taskA2)], completed := ∅ }

def taskEqA : Task := { name := "a", priority := 1, dependencies := [], due_date := none }

def taskEqB : Task := { name := "b", priority := 1, dependencies := [], due_date := none }

/-- A valid two-element heap with equal priorities: its drain succeeds (no
comparison touches both equal entries) but the rebuild's second `heappush`
compares them and raises. -/
def mgrEq : TaskManager := { tasks := [(1, taskEqA), (1, taskEqB)], completed := ∅ }

/-- C1.  As stated ("for every store state ... returns a boolean") the claim
fails: on the reachable state `mgr3`, whose heap holds two equal-priority
distinct tasks, the very first `heappop` of the drain compares them and raises
`TypeError`, so `complete_task` reports nothing at all even though a pending
task named `"x"` exists. -/
theorem c1_counterexample :
    (Except.bind (Except.bind (add_task emptyMgr "x" (.pyint 0) none none)
        (fun m => add_task m "t1" (.pyint 1) none none))
      (fun m => add_task m "t2" (.pyint 1) none none) = .ok mgr3) ∧
    complete_task mgr3 "x" = .error .typeError ∧
    (∃ e ∈ mgr3.tasks, e.2.name = "x") := by decide

/-- C1 (amended): whenever `complete_task` completes without an exception, its
`task_found` flag (the caller-observable found report) is true exactly when
some pending task has the looked-up name — in particular it is false when the
name only occurs in `completed_tasks`. -/
theorem c1_found_iff_pending_name (m : TaskManager) (name : String) (m2 : TaskManager)
    (f : Bool) (h : complete_task m name = .ok (m2, f)) :
    f = true ↔ ∃ e ∈ m.tasks, e.2.name = name := by
  obtain ⟨-, hf, -⟩ := complete_task_spec m name m2 f h
  rw [hf]
  simp [List.any_eq_true]

/-- C1 witness: completing `"b"` in a two-task store reports found. -/
theorem c1_witness : (true = true) ↔ (∃ e ∈ mgrBC.tasks, e.2.name = "b") :=
  c1_found_iff_pending_name mgrBC "b" { tasks := [(2, taskC)], completed := {"b"} } true
    (by decide)

/-- C2.  The claim ("only the first match in pop order is removed; the rest
remain pending") fails: the drain loop keeps popping after a match and drops
every matching entry.  `mgrAA` (reachable by the two `add_task` calls shown)
holds two pending tasks named `"A"`; after `complete_task "A"` the pending
heap is empty — the second duplicate did not remain. -/
theorem c2_counterexample :
    (Except.bind (add_task emptyMgr "A" (.pyint 1) none none)
      (fun m => add_task m "A" (.pyint 2) none none) = .ok mgrAA) ∧
    complete_task mgrAA "A" = .ok ({ tasks := [], completed := {"A"} }, true) := by decide

/-- C2 (amended): on a run without exceptions, `complete_task` removes every
pending task whose name matches exactly — the surviving heap is a permutation
of the non-matching entries, with multiplicity — rather than only the first
one in pop order. -/
theorem c2_all_matching_removed (m : TaskManager) (name : String) (m2 : TaskManager)
    (f : Bool) (h : complete_task m name = .ok (m2, f)) :
    List.Perm m2.tasks (m.tasks.filter (fun e => decide (e.2.name ≠ name))) :=
  (complete_task_spec m name m2 f h).1

/-- C2 witness: on `mgrAA` both tasks named `"A"` disappear and nothing else
was pending. -/
theorem c2_witness :
    List.Perm (TaskManager.tasks { tasks := [], completed := {"A"} })
      (mgrAA.tasks.filter (fun e => decide (e.2.name ≠ "A"))) :=
  c2_all_matching_removed mgrAA "A" { tasks := [], completed := {"A"} } true (by decide)

/-- C3: `show_tasks` displays a permutation of the pending heap (the heap
itself is untouched — `sorted` builds a new list, and the embedding is a pure
function of the state) ordered by ascending priority and, within one priority,
by ascending due-date key where a missing date maps to `""` and therefore
sorts first. -/
theorem c3_show_tasks_sorted (m : TaskManager) :
    List.Perm (show_tasks m) m.tasks ∧ List.Pairwise claimOrder (show_tasks m) := by
  refine ⟨List.mergeSort_perm m.tasks showKeyLE, ?_⟩
  have hs := @List.sorted_mergeSort Entry showKeyLE showKeyLE_trans showKeyLE_total m.tasks
  refine hs.imp ?_
  intro a b hab
  simp only [showKeyLE, Bool.or_eq_true, Bool.and_eq_true, decide_eq_true_eq] at hab
  exact hab

/-- C4.  The first part of the claim is right — pushing a second task with an
equal priority onto a one-element heap compares the two dicts and raises
`TypeError` — but the conclusion "states with two equal-priority pending tasks
are unreachable via add_task" is false: adding priorities 0, 1, 1 in that
order succeeds because the third push only ever compares against the
priority-0 parent, and it reaches `mgr3`, which holds the equal-priority pair
`taskT1`, `taskT2`. -/
theorem c4_counterexample :
    (Except.bind (Except.bind (add_task emptyMgr "x" (.pyint 0) none none)
        (fun m => add_task m "t1" (.pyint 1) none none))
      (fun m => add_task m "t2" (.pyint 1) none none) = .ok mgr3) ∧
    ((1, taskT1) ∈ mgr3.tasks ∧ (1, taskT2) ∈ mgr3.tasks ∧ taskT1 ≠ taskT2) := by decide

/-- C4 (amended): consecutive equal-priority `add_task` calls do raise an
unhandled `TypeError` from the heap sift's dict comparison, and
`complete_task` (here during its rebuild pushes, on the valid equal-priority
heap `mgrEq`) and `load_tasks`' `heapify` can fail the same way; but such
states are not unreachable — the priority-0,1,1 insertion order reaches
`mgr3` with two equal-priority pending tasks. -/
theorem c4_equal_priority_failures :
    (Except.bind (add_task emptyMgr "A" (.pyint 1) none none)
      (fun m => add_task m "B" (.pyint 1) none none) = .error .typeError) ∧
    (Except.bind (Except.bind (add_task emptyMgr "x" (.pyint 0) none none)
        (fun m => add_task m "t1" (.pyint 1) none none))
      (fun m => add_task m "t2" (.pyint 1) none none) = .ok mgr3) ∧
    ((1, taskT1) ∈ mgr3.tasks ∧ (1, taskT2) ∈ mgr3.tasks ∧ taskT1 ≠ taskT2) ∧
    complete_task mgrEq "zzz" = .error .typeError ∧
    heapify mgrEq.tasks = .error .typeError := by decide

/-- C5.  As stated ("for every store state") the claim fails: on the reachable
state `mgr3` a lookup of the absent name `"z"` raises `TypeError` during the
drain instead of returning not-found with unchanged state (in the source the
popped entries are lost from `self.tasks` at that point). -/
theorem c5_counterexample :
    complete_task mgr3 "z" = .error .typeError ∧
    (∀ e ∈ mgr3.tasks, e.2.name ≠ "z") := by decide

/-- C5 (amended): whenever the drain-and-rebuild completes without an
exception and no pending task carries the name, `complete_task` reports
not-found and leaves the pending multiset and the completed set unchanged. -/
theorem c5_no_match_unchanged (m : TaskManager) (name : String) (m2 : TaskManager)
    (f : Bool) (hno : ∀ e ∈ m.tasks, e.2.name ≠ name)
    (h : complete_task m name = .ok (m2, f)) :
    f = false ∧ List.Perm m2.tasks m.tasks ∧ m2.completed = m.completed := by
  obtain ⟨ht, hf, hc⟩ := complete_task_spec m name m2 f h
  have hfalse : f = false := by
    rw [hf, List.any_eq_false]
    intro x hx
    simpa using hno x hx
  refine ⟨hfalse, ?_, ?_⟩
  · have hfilter : m.tasks.filter (fun e => decide (e.2.name ≠ name)) = m.tasks :=
      List.filter_eq_self.mpr (fun a ha => by simpa using hno a ha)
    rwa [hfilter] at ht
  · rw [hfalse] at hc
    simpa using hc

/-- C5 witness: looking up `"z"` in a store holding `"b"` and `"c"` reports
not-found and restores both tasks and the empty completed set. -/
theorem c5_witness :
    false = false ∧
    List.Perm (TaskManager.tasks { tasks := [(1, taskB), (2, taskC)], completed := ∅ })
      mgrBC.tasks ∧
    TaskManager.completed { tasks := [(1, taskB), (2, taskC)], completed := ∅ } =
      mgrBC.completed :=
  c5_no_match_unchanged mgrBC "z" { tasks := [(1, taskB), (2, taskC)], completed := ∅ } false
    (by decide) (by decide)

/-- C6: `next_task` on an empty heap reports no pending tasks; otherwise it
only inspects `tasks[0]` — returning that task when executable and reporting
blocked otherwise, never searching deeper — and under the heap invariant
`tasks[0]` carries a minimal priority.  The embedding is a pure read of the
state, matching the source, which never assigns to `self.tasks`. -/
theorem c6_next_task_peeks_min (m : TaskManager) :
    (m.tasks = [] → next_task m = .noPending) ∧
    (∀ p t rest, m.tasks = (p, t) :: rest →
      (next_task m = if is_executable m t then .found t else .blocked) ∧
      (heapProp m.tasks → ∀ e ∈ m.tasks, p ≤ e.1)) := by
  constructor
  · intro h; unfold next_task; rw [h]
  · intro p t rest hmt
    constructor
    · unfold next_task; rw [hmt]
    · intro hheap e he
      obtain ⟨i, hi, hei⟩ := List.mem_iff_getElem.mp he
      have hroot := heapProp_root_le m.tasks hheap i hi
      have h0 : m.tasks.getD 0 dfltEntry = (p, t) := by rw [hmt]; rfl
      have hie : m.tasks.getD i dfltEntry = e := by
        rw [List.getD_eq_getElem _ _ hi, hei]
      rw [h0, hie] at hroot
      exact hroot

def taskBuild : Task := { name := "build", priority := 1, dependencies := [], due_date := none }

def taskDeploy : Task :=
  { name := "deploy", priority := 2, dependencies := ["build"], due_date := none }

def mgrBuild : TaskManager := { tasks := [(1, taskBuild), (2, taskDeploy)], completed := ∅ }

/-- C6 witness: on the build/deploy store, `next_task` returns the
minimum-priority executable task `build`, whose priority bounds the heap. -/
theorem c6_witness :
    next_task mgrBuild = .found taskBuild ∧ (∀ e ∈ mgrBuild.tasks, (1 : Int) ≤ e.1) := by
  have h := (c6_next_task_peeks_min mgrBuild).2 1 taskBuild [(2, taskDeploy)] rfl
  exact ⟨h.1.trans (by decide), h.2 (by decide)⟩

/-- C7: a task is executable exactly when every dependency name is in the
completed set; a task depending on `["A"]` is not executable while `"A"` is
outside the set and becomes executable once `complete_task "A"` succeeds with
the found flag set. -/
theorem c7_executable_iff (m : TaskManager) (t : Task) :
    (is_executable m t = true ↔ ∀ d ∈ t.dependencies, d ∈ m.completed) ∧
    (t.dependencies = ["A"] →
      ("A" ∉ m.completed → is_executable m t = false) ∧
      (∀ m2 f, complete_task m "A" = .ok (m2, f) → f = true →
        is_executable m2 t = true)) := by
  constructor
  · simp [is_executable, List.all_eq_true]
  · intro hdep
    constructor
    · intro hnot
      simp [is_executable, hdep, hnot]
    · intro m2 f h hf
      obtain ⟨-, -, hc⟩ := complete_task_spec m "A" m2 f h
      rw [hf] at hc
      simp only [if_pos rfl] at hc
      simp [is_executable, hdep, hc]

def taskA : Task := { name := "A", priority := 1, dependencies := [], due_date := none }

def taskDepA : Task :=
  { name := "needsA", priority := 3, dependencies := ["A"], due_date := none }

def mgrA : TaskManager := { tasks := [(1, taskA)], completed := ∅ }

/-- C7 witness: before completing `"A"` the dependent task is blocked; after
`complete_task "A"` succeeds it is executable. -/
theorem c7_witness :
    is_executable mgrA taskDepA = false ∧
    is_executable { tasks := [], completed := {"A"} } taskDepA = true := by
  have h := (c7_executable_iff mgrA taskDepA).2 rfl
  exact ⟨h.1 (by decide),
    h.2 { tasks := [], completed := {"A"} } true (by decide) rfl⟩

/-- C8: an empty or whitespace-only name, or a non-integer priority, makes
`add_task` raise `ValueError`.  Both validations run before the heap push and
the save in the source, so no state mutation or write precedes the raise; in
the embedding the error result carries no successor state. -/
theorem c8_validation_errors (m : TaskManager) (name : String)
    (deps : Option (List String)) (due : Option String) :
    (isBlank name = true → ∀ p, add_task m name p deps due = .error .valueError) ∧
    (∀ lit, add_task m name (.pyfloat lit) deps due = .error .valueError) := by
  constructor
  · intro h p
    unfold add_task
    rw [if_pos h]
  · intro lit
    unfold add_task
    by_cases h : isBlank name = true
    · rw [if_pos h]
    · rw [if_neg h]

/-- C8 witness: the spec's three example calls all fail with the validation
error. -/
theorem c8_witness :
    add_task emptyMgr "" (.pyint 1) none none = .error .valueError ∧
    add_task emptyMgr "   " (.pyint 1) none none = .error .valueError ∧
    add_task emptyMgr "x" (.pyfloat "1.5") none none = .error .valueError :=
  ⟨(c8_validation_errors emptyMgr "" none none).1 (by decide) (.pyint 1),
   (c8_validation_errors emptyMgr "   " none none).1 (by decide) (.pyint 1),
   (c8_validation_errors emptyMgr "x" none none).2 "1.5"⟩

/-- C9.  As stated ("for every reachable store state") the claim fails: the
state `mgr3` is reachable by `add_task` with priorities 0, 1, 1, but reloading
its own save raises `TypeError`, because `heapify` compares the two
equal-priority distinct task dicts. -/
theorem c9_counterexample :
    (Except.bind (Except.bind (add_task emptyMgr "x" (.pyint 0) none none)
        (fun m => add_task m "t1" (.pyint 1) none none))
      (fun m => add_task m "t2" (.pyint 1) none none) = .ok mgr3) ∧
    load_tasks (save_tasks mgr3) = .error .typeError := by decide

/-- C9 (amended): whenever reconstruction from the saved file succeeds, the
reloaded pending tasks are a permutation (equal multiset) of the saved ones
and the completed set is reproduced exactly. -/
theorem c9_round_trip (m m2 : TaskManager)
    (h : load_tasks (save_tasks m) = .ok m2) :
    List.Perm m2.tasks m.tasks ∧ m2.completed = m.completed := by
  unfold load_tasks save_tasks at h
  dsimp only at h
  cases hh : heapify m.tasks with
  | error e => rw [hh] at h; cases h
  | ok ts =>
    rw [hh] at h
    have h2 := Except.ok.inj h
    subst h2
    exact ⟨heapify_perm m.tasks ts hh, toFinset_completedList m.completed⟩

/-- C9 witness: a store with two tasks and a completed name survives the
round trip. -/
theorem c9_witness :
    List.Perm (TaskManager.tasks { tasks := [(1, taskB), (2, taskC)], completed := {"a"} })
      (TaskManager.tasks { tasks := [(1, taskB), (2, taskC)], completed := {"a"} }) ∧
    TaskManager.completed { tasks := [(1, taskB), (2, taskC)], completed := {"a"} } =
      TaskManager.completed { tasks := [(1, taskB), (2, taskC)], completed := {"a"} } :=
  c9_round_trip { tasks := [(1, taskB), (2, taskC)], completed := {"a"} }
    { tasks := [(1, taskB), (2, taskC)], completed := {"a"} } (by decide)

/-- C10: a missing file yields an empty store, while a malformed file makes
construction fail (`json.load` raises and `load_tasks` has no handler) instead
of falling back to an empty store. -/
theorem c10_load_dichotomy :
    load_tasks .missing = .ok { tasks := [], completed := ∅ } ∧
    load_tasks .malformed = .error .jsonDecodeError :=
  ⟨rfl, rfl⟩

end Examen2
